import Mathlib

/-!
Verification of the prototype-chain property-resolution model and the
transaction-hash examples of this repository.

The file is organised as follows.

1.  The 32-bit string hash used by `calculateHash` in
    `src/object/inheritanceBasedObjectModeling/contructorFunctions.js`
    (instance-method and prototype-method variants) and the `new.target`
    construction guard of `HashTransaction`.
2.  An inductive `Node` model of the prototype chain with property slots
    (value / writable / enumerable / configurable) and the resolver
    operations `get`, `set`, `defineOwn`, `enumerateOwnAndInherited`, and
    the merge utility `mergeInto`.
3.  A mutable-delegate heap model with `linkDelegate` and its cycle check.
4.  The OLOO `MyStore` / `Blockchain` / `chain` store example.
-/

/-! ## Part 1: the 32-bit transaction hash -/

/-- JavaScript `ToInt32`: truncate an integer to a 32-bit two's-complement
signed value. -/
def toInt32 (n : Int) : Int :=
  (n + 2 ^ 31) % 2 ^ 32 - 2 ^ 31

/-- One step of the hash loop from `contructorFunctions.js`:
`hash = ((hash << 5) - hash + data.charCodeAt(i++)) << 0`.
The inner shift `hash << 5` is itself a 32-bit operation, and the trailing
`<< 0` truncates the mixed result back to 32 bits. -/
def hashStep (hash : Int) (code : Nat) : Int :=
  toInt32 (toInt32 (hash * 32) - hash + code)

/-- Fold the hash loop over the character codes of a string. -/
def hashString (data : String) : Int :=
  data.data.foldl (fun h c => hashStep h c.toNat) 0

/-- The per-instance `calculateHash` method installed by the
`HashTransaction` constructor (`contructorFunctions.js`, lines 51-59):
join `sender` and `recipient`, fold the hash loop, square the result.
For the inputs exercised by the source the exact integer square is
representable as a float64, so squaring over `Int` agrees with the
JavaScript `**` operator there. -/
def calculateHash (sender recipient : String) : Int :=
  (hashString (sender ++ recipient)) ^ 2

/-- The shared prototype method `HashTransactionC.prototype.calculateHashC`
(`contructorFunctions.js`, lines 175-183), translated separately from its
own source text. -/
def calculateHashC (sender recipient : String) : Int :=
  (hashString (sender ++ recipient)) ^ 2

/-- The object produced by the `HashTransaction` constructor: own slots
`sender` and `recipient` (the own `calculateHash` slot holds a closure whose
behaviour is `calculateHash` applied to the object's two string slots). -/
structure HashTransactionObj where
  sender : String
  recipient : String
deriving Repr, DecidableEq

/-- Calling `HashTransaction(sender, recipient)`: when `newTarget` is false
(call without `new`), the guard `if (!new.target) return new
HashTransaction(sender, recipient)` re-enters the constructor with
`new.target` set; otherwise the own slots are initialised via
`Transaction.call(this, sender, recipient)`. -/
def callHashTransaction (newTarget : Bool) (sender recipient : String) :
    HashTransactionObj :=
  if _h : newTarget = false then
    callHashTransaction true sender recipient
  else
    { sender := sender, recipient := recipient }
termination_by if newTarget then 0 else 1
decreasing_by simp_all

/-- Behaviour of the `calculateHash` own slot of a constructed object: the
closure reads `this.sender` and `this.recipient` at call time. -/
def objCalculateHash (o : HashTransactionObj) : Int :=
  calculateHash o.sender o.recipient

set_option maxRecDepth 100000 in
/-- C2 (counterexample): for sender `luis@tjoj.com` and recipient
`luke@tjoj.com`, folding the character codes of the concatenation with the
32-bit hash step and squaring the final accumulator does NOT yield
237572532174000400. -/
theorem c2_hash_value_claim_false :
    calculateHash "luis@tjoj.com" "luke@tjoj.com" ≠ 237572532174000400 := by
  decide

set_option maxRecDepth 100000 in
/-- C2 (amended): the squared final accumulator for `luis@tjoj.com` /
`luke@tjoj.com` equals exactly 237572532174000384 (the final accumulator is
487414128).  This integer is exactly representable as a float64, and
237572532174000400 is merely the shortest-round-trip decimal rendering that
`console.log` prints for it. -/
theorem c2_hash_value_exact :
    calculateHash "luis@tjoj.com" "luke@tjoj.com" = 237572532174000384 ∧
      hashString ("luis@tjoj.com" ++ "luke@tjoj.com") = 487414128 := by
  constructor <;> decide

/-- C8: the per-instance `calculateHash` method installed by the
`HashTransaction` constructor and the shared prototype method
`calculateHashC` on `HashTransactionC.prototype` compute equal results on
any object whose own `sender` and `recipient` slots hold the given values. -/
theorem c8_instance_prototype_hash_equivalent (sender recipient : String) :
    calculateHash sender recipient = calculateHashC sender recipient := rfl

/-- C9: calling `HashTransaction(sender, recipient)` without `new` returns
an object with the same own slots (`sender`, `recipient`) and the same
`calculateHash` behaviour as one produced with `new`: the `new.target`
guard makes construction invocation-independent. -/
theorem c9_new_target_guard (sender recipient : String) :
    callHashTransaction false sender recipient =
        callHashTransaction true sender recipient ∧
      (callHashTransaction false sender recipient).sender = sender ∧
      (callHashTransaction false sender recipient).recipient = recipient ∧
      objCalculateHash (callHashTransaction false sender recipient) =
        objCalculateHash (callHashTransaction true sender recipient) := by
  refine ⟨?_, ?_, ?_, ?_⟩ <;> rw [callHashTransaction] <;> simp <;>
    rw [callHashTransaction] <;> simp

/-! ## Part 2: the prototype-chain property-resolution model

Modelled from the spec: the resolver (`get`, `set`, `defineOwn`,
`enumerateOwnAndInherited`, `mergeInto`) is the JavaScript engine's
property-resolution behaviour that the repository's files demonstrate; it
is not itself code under `src/`, so the definitions below follow the
spec's contract wording (sections 3, 4.1 and 4.2). -/

namespace Resolver

/-- A property slot: a value plus the three descriptor flags.
Plain-assignment slots have all three flags true. -/
structure Slot (α : Type) where
  value : α
  writable : Bool
  enumerable : Bool
  configurable : Bool
deriving Repr, DecidableEq

/-- A Node: an ordered mapping from property key to slot, plus an optional
delegate (prototype) link.  The inductive structure makes every delegate
chain finite and acyclic by construction, matching the spec invariant. -/
inductive Node (α : Type) : Type where
  | mk (own : List (String × Slot α)) (delegate : Option (Node α))
deriving Repr

/-- The own-slot list of a Node. -/
def Node.own {α : Type} : Node α → List (String × Slot α)
  | .mk o _ => o

/-- The delegate link of a Node. -/
def Node.delegate {α : Type} : Node α → Option (Node α)
  | .mk _ d => d

/-- Constructor reading of the own-slot list. -/
@[simp] theorem Node.own_mk {α : Type} (o : List (String × Slot α))
    (d : Option (Node α)) : (Node.mk o d).own = o := rfl

/-- Constructor reading of the delegate link. -/
@[simp] theorem Node.delegate_mk {α : Type} (o : List (String × Slot α))
    (d : Option (Node α)) : (Node.mk o d).delegate = d := rfl

/-- The own slot of `node` named `key`, if any. -/
def ownSlot {α : Type} (node : Node α) (key : String) : Option (Slot α) :=
  (node.own.find? (fun p => p.1 == key)).map Prod.snd

/-- The delegate chain of a Node, starting at the Node itself. -/
def chain {α : Type} : Node α → List (Node α)
  | .mk o none => [.mk o none]
  | .mk o (some d) => .mk o (some d) :: chain d

/-- A tagged resolution outcome: `found value owner` or `notFound`. -/
inductive ResolutionResult (α : Type) : Type where
  | found (value : α) (owner : Node α)
  | notFound
deriving Repr

/-- Modelled from the spec: `get(node, key)` returns
`Found(slot.value, owner)` for the first Node in the chain (starting at
`node` itself) that has an own slot named `key`, and `NotFound` when no
Node in the chain has one. -/
def get {α : Type} : Node α → String → ResolutionResult α
  | .mk o none, key =>
    match (Node.mk o none).own.find? (fun p => p.1 == key) with
    | some p => .found p.2.value (.mk o none)
    | none => .notFound
  | .mk o (some d), key =>
    match (Node.mk o (some d)).own.find? (fun p => p.1 == key) with
    | some p => .found p.2.value (.mk o (some d))
    | none => get d key

/-- Modelled from the spec: `set(node, key, value)` creates or overwrites an
own slot on `node` (never on a delegate); when an existing own slot has
`writable = false` the write is silently ignored. -/
def set {α : Type} (node : Node α) (key : String) (v : α) : Node α :=
  match ownSlot node key with
  | some s =>
    if s.writable then
      .mk (node.own.map (fun p =>
        if p.1 == key then (p.1, { p.2 with value := v }) else p)) node.delegate
    else
      node
  | none => .mk (node.own ++ [(key, ⟨v, true, true, true⟩)]) node.delegate

/-- Raised by `defineOwn` when altering a non-configurable slot's protected
attributes. -/
inductive ConfigurationError : Type where
  | configurationError
deriving Repr, DecidableEq

/-- Modelled from the spec: `defineOwn(node, key, descriptor)` creates or
reconfigures an own slot using explicit flags; it fails with a
`ConfigurationError` when the existing slot has `configurable = false` and
the descriptor would change any flag or the value of a non-writable slot. -/
def defineOwn {α : Type} [DecidableEq α] (node : Node α) (key : String)
    (d : Slot α) : Except ConfigurationError (Node α) :=
  match ownSlot node key with
  | none => .ok (.mk (node.own ++ [(key, d)]) node.delegate)
  | some s =>
    if s.configurable = false ∧
        (d.writable ≠ s.writable ∨ d.enumerable ≠ s.enumerable ∨
          d.configurable ≠ s.configurable ∨
          (s.writable = false ∧ d.value ≠ s.value)) then
      .error .configurationError
    else
      .ok (.mk (node.own.map (fun p => if p.1 == key then (p.1, d) else p))
        node.delegate)

/-- Walk one Node's own pairs in order: an unseen key is marked seen, and
emitted when its slot is enumerable. -/
def visitOwn {α : Type} : List (String × Slot α) → List String →
    List String × List String
  | [], seen => ([], seen)
  | p :: rest, seen =>
    if p.1 ∈ seen then visitOwn rest seen
    else
      let st := visitOwn rest (p.1 :: seen)
      (if p.2.enumerable then p.1 :: st.1 else st.1, st.2)

/-- Walk the chain, threading the set of already-seen keys. -/
def enumKeys {α : Type} : Node α → List String → List String
  | .mk o none, seen => (visitOwn o seen).1
  | .mk o (some d), seen => (visitOwn o seen).1 ++ enumKeys d (visitOwn o seen).2

/-- Modelled from the spec: `enumerateOwnAndInherited(node)` yields each key
with `enumerable = true`, taken from `node` first and then each ancestor in
chain order, each key emitted exactly once (first occurrence wins). -/
def enumerateOwnAndInherited {α : Type} (node : Node α) : List String :=
  enumKeys node []

/-- All own pairs along the chain, nearest Node first. -/
def allOwnPairs {α : Type} (node : Node α) : List (String × Slot α) :=
  (chain node).flatMap (fun m => m.own)

/-- Keep only the first pair for each key (given an initial seen set). -/
def firstOcc {α : Type} : List (String × Slot α) → List String →
    List (String × Slot α)
  | [], _ => []
  | p :: rest, seen =>
    if p.1 ∈ seen then firstOcc rest seen
    else p :: firstOcc rest (p.1 :: seen)

/-- Declarative reading of enumeration: the keys whose first occurrence
along the chain is enumerable, in first-occurrence order. -/
def specVisibleKeys {α : Type} (node : Node α) : List String :=
  ((firstOcc (allOwnPairs node) []).filter (fun p => p.2.enumerable)).map
    Prod.fst

/-- Plain-assignment copy used by `mergeInto`: creates or overwrites an own
slot with default flags (all true), overwriting every pair of that key. -/
def assignOwn {α : Type} (target : Node α) (key : String) (v : α) : Node α :=
  if (target.own.find? (fun p => p.1 == key)).isSome then
    .mk (target.own.map (fun p =>
      if p.1 == key then (p.1, ⟨v, true, true, true⟩) else p)) target.delegate
  else
    .mk (target.own ++ [(key, ⟨v, true, true, true⟩)]) target.delegate

/-- Copy one source into the target: each own pair with `enumerable = true`,
in order, value copied with default flags. -/
def mergeOne {α : Type} (target source : Node α) : Node α :=
  source.own.foldl
    (fun t p => if p.2.enumerable then assignOwn t p.1 p.2.value else t) target

/-- Modelled from the spec: `mergeInto(target, ...sources)` copies each
source's enumerable own values into the target in left-to-right source
order and returns the target. -/
def mergeInto {α : Type} (target : Node α) (sources : List (Node α)) :
    Node α :=
  sources.foldl mergeOne target

/-- `get` agrees with the declarative first-owner-in-chain description. -/
theorem get_eq_chain_find {α : Type} (node : Node α) (key : String) :
    get node key =
      (match (chain node).find? (fun m => (ownSlot m key).isSome) with
      | some owner =>
        (match ownSlot owner key with
         | some s => ResolutionResult.found s.value owner
         | none => ResolutionResult.notFound)
      | none => ResolutionResult.notFound) := by
  match node with
  | .mk o none =>
    cases h : o.find? (fun p => p.1 == key) with
    | none => simp [get, chain, ownSlot, Node.own, h, List.find?]
    | some p => simp [get, chain, ownSlot, Node.own, h, List.find?]
  | .mk o (some d) =>
    cases h : o.find? (fun p => p.1 == key) with
    | none =>
      simpa [get, chain, ownSlot, Node.own, h, List.find?] using
        get_eq_chain_find d key
    | some p => simp [get, chain, ownSlot, Node.own, h, List.find?]

/-- A Node with an own slot resolves to its own value (itself the owner). -/
theorem get_own {α : Type} (c : Node α) (k : String) (s : Slot α)
    (h : ownSlot c k = some s) : get c k = .found s.value c := by
  obtain ⟨o, del⟩ := c
  unfold ownSlot Node.own at h
  cases hf : List.find? (fun p => p.1 == k) o with
  | none => rw [hf] at h; simp at h
  | some pr =>
    rw [hf] at h
    simp only [Option.map_some', Option.some.injEq] at h
    cases del <;> simp [get, hf, Node.own] <;> rw [h]

/-- A Node without an own slot defers to its delegate. -/
theorem get_delegate {α : Type} (o : List (String × Slot α)) (d : Node α)
    (k : String) (h : ownSlot (.mk o (some d)) k = none) :
    get (.mk o (some d)) k = get d k := by
  unfold ownSlot Node.own at h
  cases hf : List.find? (fun p => p.1 == k) o with
  | none => simp [get, hf, Node.own]
  | some pr => rw [hf] at h; simp at h

/-- C1: `get(node, key)` returns `Found(slot.value, owner)` for the first
Node in the delegate chain (starting at `node`) owning `key` and `NotFound`
otherwise; a child shadows its delegate parent on a shared key; and in a
chain `a -> b -> c` where only `c` defines `k`, `get(a, k)` is
`Found(c.k, c)`. -/
theorem c1_get_first_owner_in_chain {α : Type} :
    (∀ (node : Node α) (key : String),
      get node key =
        (match (chain node).find? (fun m => (ownSlot m key).isSome) with
        | some owner =>
          (match ownSlot owner key with
           | some s => ResolutionResult.found s.value owner
           | none => ResolutionResult.notFound)
        | none => ResolutionResult.notFound)) ∧
    (∀ (child parent : Node α) (k : String) (sc sp : Slot α),
      child.delegate = some parent → ownSlot child k = some sc →
        ownSlot parent k = some sp →
        get child k = .found sc.value child) ∧
    (∀ (aOwn bOwn : List (String × Slot α)) (c : Node α) (k : String)
        (s : Slot α),
      ownSlot (Node.mk aOwn (some (Node.mk bOwn (some c)))) k = none →
        ownSlot (Node.mk bOwn (some c)) k = none →
        ownSlot c k = some s →
        get (Node.mk aOwn (some (Node.mk bOwn (some c)))) k =
          .found s.value c) := by
  refine ⟨get_eq_chain_find, ?_, ?_⟩
  · intro child parent k sc sp _hdel hc _hp
    exact get_own child k sc hc
  · intro aOwn bOwn c k s ha hb hc
    rw [get_delegate _ _ _ ha, get_delegate _ _ _ hb]
    exact get_own c k s hc

/-- Example parent owning key `k` with value 7. -/
def exParent : Node Int :=
  .mk [("k", ⟨7, true, true, true⟩)] none

/-- Example child owning key `k` with value 5. -/
def exChild : Node Int :=
  .mk [("k", ⟨5, true, true, true⟩)] (some exParent)

/-- Example chain bottom: only `exC` defines `k`. -/
def exC : Node Int := .mk [("k", ⟨3, true, true, true⟩)] none

/-- Example chain middle. -/
def exB : Node Int := .mk [] (some exC)

/-- Example chain top. -/
def exA : Node Int := .mk [] (some exB)

/-- C1 witness: the shadowing and chain-transitivity parts at concrete
nodes. -/
theorem c1_get_first_owner_in_chain_witness :
    get exChild "k" = .found 5 exChild ∧ get exA "k" = .found 3 exC :=
  ⟨c1_get_first_owner_in_chain.2.1 exChild exParent "k"
      ⟨5, true, true, true⟩ ⟨7, true, true, true⟩ (by rfl) (by rfl) (by rfl),
    c1_get_first_owner_in_chain.2.2 [] [] exC "k" ⟨3, true, true, true⟩
      (by rfl) (by rfl) (by rfl)⟩

/-- Key-preserving per-pair updates commute with keyed lookup. -/
theorem find?_map_keyfixed {α : Type} (o : List (String × Slot α))
    (k : String) (f : String × Slot α → String × Slot α)
    (hf : ∀ p, (f p).1 = p.1) :
    (o.map f).find? (fun p => p.1 == k) =
      (o.find? (fun p => p.1 == k)).map f := by
  rw [List.find?_map]
  have : ((fun p : String × Slot α => p.1 == k) ∘ f) =
      (fun p => p.1 == k) := funext fun q => by simp [Function.comp, hf]
  rw [this]

/-- A write to an existing non-writable own slot is silently ignored. -/
theorem set_nonwritable {α : Type} (n : Node α) (k : String) (v : α)
    (s : Slot α) (h : ownSlot n k = some s) (hw : s.writable = false) :
    set n k v = n := by
  unfold set
  rw [h]
  simp [hw]

/-- `set` never touches the delegate link. -/
theorem set_delegate {α : Type} (n : Node α) (k : String) (v : α) :
    (set n k v).delegate = n.delegate := by
  unfold set
  cases h : ownSlot n k with
  | none => rfl
  | some s => cases hw : s.writable <;> simp [hw, Node.delegate]

/-- A write to an existing writable own slot replaces the value and keeps
the flags. -/
theorem set_writable {α : Type} (n : Node α) (k : String) (v : α)
    (s : Slot α) (h : ownSlot n k = some s) (hw : s.writable = true) :
    ownSlot (set n k v) k = some { s with value := v } := by
  unfold set
  rw [h]
  simp only [hw, if_true]
  unfold ownSlot
  obtain ⟨o, del⟩ := n
  simp only [Node.own]
  rw [find?_map_keyfixed o k _ (fun p => by by_cases hp : p.1 == k <;> simp [hp])]
  unfold ownSlot Node.own at h
  cases hf : List.find? (fun p => p.1 == k) o with
  | none => rw [hf] at h; simp at h
  | some pr =>
    rw [hf] at h
    simp only [Option.map_some', Option.some.injEq] at h
    have hk := List.find?_some hf
    simp only [] at hk
    have hk2 : pr.1 = k := by simpa using hk
    simp [hk2, h, hw]

/-- A write to a missing key appends a fresh own slot with all flags true. -/
theorem set_fresh {α : Type} (n : Node α) (k : String) (v : α)
    (h : ownSlot n k = none) :
    ownSlot (set n k v) k = some ⟨v, true, true, true⟩ := by
  unfold set
  rw [h]
  unfold ownSlot
  obtain ⟨o, del⟩ := n
  simp only [Node.own]
  unfold ownSlot Node.own at h
  have hfo : List.find? (fun p => p.1 == k) o = none := by
    cases hf : List.find? (fun p => p.1 == k) o with
    | none => rfl
    | some pr => rw [hf] at h; simp at h
  rw [List.find?_append, hfo]
  simp

/-- C4: `set(node, key, value)` creates or overwrites an own slot on the
node itself and never on a delegate; a write to an own slot with
`writable = false` raises no error and leaves the value unchanged — in
particular after `defineOwn(n, "x", {value: v1, writable: false,
enumerable: true, configurable: true})`, `set(n, "x", v2)` leaves the
value at `v1`. -/
theorem c4_set_own_only_nonwritable_ignored {α : Type} [DecidableEq α] :
    (∀ (n : Node α) (k : String) (v : α) (s : Slot α),
      ownSlot n k = some s → s.writable = false → set n k v = n) ∧
    (∀ (n : Node α) (k : String) (v : α),
      (set n k v).delegate = n.delegate) ∧
    (∀ (n : Node α) (k : String) (v : α) (s : Slot α),
      ownSlot n k = some s → s.writable = true →
        ownSlot (set n k v) k = some { s with value := v }) ∧
    (∀ (n : Node α) (k : String) (v : α),
      ownSlot n k = none →
        ownSlot (set n k v) k = some ⟨v, true, true, true⟩) ∧
    (∀ (n : Node α) (v1 v2 : α),
      ownSlot n "x" = none →
        ∃ n', defineOwn n "x" ⟨v1, false, true, true⟩ = .ok n' ∧
          ownSlot n' "x" = some ⟨v1, false, true, true⟩ ∧
          set n' "x" v2 = n') := by
  refine ⟨set_nonwritable, set_delegate, set_writable, set_fresh, ?_⟩
  intro n v1 v2 h
  obtain ⟨o, del⟩ := n
  have hfo : List.find? (fun p => p.1 == "x") o = none := by
    unfold ownSlot Node.own at h
    cases hf : List.find? (fun p => p.1 == "x") o with
    | none => rfl
    | some pr => rw [hf] at h; simp at h
  refine ⟨.mk (o ++ [("x", ⟨v1, false, true, true⟩)]) del, ?_, ?_, ?_⟩
  · unfold defineOwn
    rw [h]
    rfl
  · unfold ownSlot Node.own
    rw [List.find?_append, hfo]
    simp
  · refine set_nonwritable _ _ _ ⟨v1, false, true, true⟩ ?_ rfl
    unfold ownSlot Node.own
    rw [List.find?_append, hfo]
    simp

/-- C4 witness: defining a non-writable slot `x = 1` on an empty node and
then writing `2` leaves the value at `1`. -/
theorem c4_set_own_only_nonwritable_ignored_witness :
    ∃ n', defineOwn (Node.mk ([] : List (String × Slot Int)) none) "x"
        ⟨1, false, true, true⟩ = .ok n' ∧
      ownSlot n' "x" = some ⟨1, false, true, true⟩ ∧
      set n' "x" 2 = n' :=
  c4_set_own_only_nonwritable_ignored.2.2.2.2
    (Node.mk ([] : List (String × Slot Int)) none) 1 2 (by rfl)

/-- The emitted component of a one-Node walk: the enumerable first
occurrences. -/
theorem visitOwn_fst {α : Type} :
    ∀ (o : List (String × Slot α)) (seen : List String),
      (visitOwn o seen).1 =
        ((firstOcc o seen).filter (fun p => p.2.enumerable)).map Prod.fst
  | [], _ => rfl
  | p :: rest, seen => by
    by_cases hp : p.1 ∈ seen
    · simp [visitOwn, firstOcc, hp, visitOwn_fst rest seen]
    · by_cases he : p.2.enumerable <;>
        simp [visitOwn, firstOcc, hp, he, visitOwn_fst rest (p.1 :: seen)]

/-- The seen component of a one-Node walk: the first-occurrence keys
(reversed) on top of the initial seen set. -/
theorem visitOwn_snd {α : Type} :
    ∀ (o : List (String × Slot α)) (seen : List String),
      (visitOwn o seen).2 =
        ((firstOcc o seen).map Prod.fst).reverse ++ seen
  | [], _ => rfl
  | p :: rest, seen => by
    by_cases hp : p.1 ∈ seen
    · simp [visitOwn, firstOcc, hp, visitOwn_snd rest seen]
    · simp [visitOwn, firstOcc, hp, visitOwn_snd rest (p.1 :: seen)]

/-- First occurrences of a concatenation: process the left part, then the
right part under the enlarged seen set. -/
theorem firstOcc_append {α : Type} :
    ∀ (l1 l2 : List (String × Slot α)) (seen : List String),
      firstOcc (l1 ++ l2) seen =
        firstOcc l1 seen ++
          firstOcc l2 (((firstOcc l1 seen).map Prod.fst).reverse ++ seen)
  | [], l2, seen => by simp [firstOcc]
  | p :: l1, l2, seen => by
    by_cases hp : p.1 ∈ seen
    · simp [firstOcc, hp, firstOcc_append l1 l2 seen]
    · simp [firstOcc, hp, firstOcc_append l1 l2 (p.1 :: seen),
        List.append_assoc]

/-- The chain walk agrees with the declarative first-occurrence view, for
any initial seen set. -/
theorem enumKeys_eq {α : Type} :
    ∀ (n : Node α) (seen : List String),
      enumKeys n seen =
        ((firstOcc (allOwnPairs n) seen).filter
          (fun p => p.2.enumerable)).map Prod.fst
  | .mk o none, seen => by
    simp [enumKeys, allOwnPairs, chain, Node.own, visitOwn_fst]
  | .mk o (some d), seen => by
    rw [enumKeys, visitOwn_fst, visitOwn_snd, enumKeys_eq d]
    simp only [allOwnPairs, chain, Node.own, List.flatMap_cons]
    rw [firstOcc_append]
    simp [List.filter_append]

/-- Example parent: enumerable `a = 1`, non-enumerable `b = 2`. -/
def parentEnum : Node Int :=
  .mk [("a", ⟨1, true, true, true⟩), ("b", ⟨2, true, false, true⟩)] none

/-- Example child delegating to `parentEnum` with own enumerable `a = 99`. -/
def childEnum : Node Int :=
  .mk [("a", ⟨99, true, true, true⟩)] (some parentEnum)

/-- C5: enumeration yields exactly the keys whose first occurrence along
the chain (node first, then ancestors) is enumerable, each key once, first
occurrence winning; for a parent with enumerable `a` and non-enumerable `b`
and a child delegating to it with own enumerable `a = 99`, enumerating the
child yields exactly `["a"]` resolving to `99`. -/
theorem c5_enumeration_visibility_shadowing :
    (∀ (α : Type) (n : Node α),
      enumerateOwnAndInherited n = specVisibleKeys n) ∧
    enumerateOwnAndInherited childEnum = ["a"] ∧
    get childEnum "a" = .found 99 childEnum :=
  ⟨fun _ n => enumKeys_eq n [], by decide, rfl⟩

/-- The own list produced by a plain-assignment copy. -/
theorem assignOwn_own {α : Type} (t : Node α) (k : String) (v : α) :
    (assignOwn t k v).own =
      if (t.own.find? (fun p => p.1 == k)).isSome then
        t.own.map (fun p =>
          if p.1 == k then (p.1, ⟨v, true, true, true⟩) else p)
      else t.own ++ [(k, ⟨v, true, true, true⟩)] := by
  unfold assignOwn
  by_cases hex : (t.own.find? (fun p => p.1 == k)).isSome <;> simp [hex]

/-- A plain-assignment copy never touches the delegate link. -/
theorem assignOwn_delegate {α : Type} (t : Node α) (k : String) (v : α) :
    (assignOwn t k v).delegate = t.delegate := by
  unfold assignOwn
  by_cases hex : (t.own.find? (fun p => p.1 == k)).isSome <;> simp [hex]

/-- Lookup after a plain-assignment copy: the assigned key reads back the
new all-true slot; other keys are untouched. -/
theorem ownSlot_assignOwn {α : Type} (t : Node α) (k k2 : String) (v : α) :
    ownSlot (assignOwn t k v) k2 =
      if k2 = k then some ⟨v, true, true, true⟩ else ownSlot t k2 := by
  unfold ownSlot
  rw [assignOwn_own]
  by_cases hex : (t.own.find? (fun p => p.1 == k)).isSome
  · simp only [hex, if_true]
    rw [find?_map_keyfixed t.own k2
      (fun p => if p.1 == k then (p.1, (⟨v, true, true, true⟩ : Slot α))
        else p)
      (fun p => by by_cases hp : p.1 == k <;> simp [hp])]
    by_cases hk : k2 = k
    · subst hk
      obtain ⟨pr, hex2⟩ := Option.isSome_iff_exists.mp hex
      rw [hex2]
      have hpk := List.find?_some hex2
      simp only [] at hpk
      have hpk2 : pr.1 = k2 := by simpa using hpk
      simp [hpk, hpk2]
    · cases hf2 : t.own.find? (fun p => p.1 == k2) with
      | none => simp [hk]
      | some q =>
        have hqk := List.find?_some hf2
        simp only [] at hqk
        have hq2 : q.1 = k2 := by simpa using hqk
        have hqne : ¬(q.1 = k) := by
          rw [hq2]
          exact hk
        simp [hk, hqne]
  · simp only [hex, Bool.false_eq_true, if_false]
    rw [List.find?_append]
    have hnone : t.own.find? (fun p => p.1 == k) = none :=
      Option.not_isSome_iff_eq_none.mp (by simpa using hex)
    by_cases hk : k2 = k
    · subst hk
      rw [hnone]
      simp [List.find?]
    · have hkne : (k == k2) = false :=
        beq_eq_false_iff_ne.mpr fun h => hk h.symm
      cases hf2 : t.own.find? (fun p => p.1 == k2) <;>
        simp [List.find?, hkne, hk, hf2]

/-- Lookup after folding plain-assignment copies of the enumerable pairs:
the last enumerable pair for the key wins, else the target is unchanged. -/
theorem ownSlot_fold_assign {α : Type} (k : String) :
    ∀ (pairs : List (String × Slot α)) (t : Node α),
      ownSlot (pairs.foldl (fun t p =>
          if p.2.enumerable then assignOwn t p.1 p.2.value else t) t) k =
        (match pairs.reverse.find? (fun p => p.1 == k && p.2.enumerable) with
        | some pr => some ⟨pr.2.value, true, true, true⟩
        | none => ownSlot t k)
  | [], _ => rfl
  | p :: rest, t => by
    rw [List.foldl_cons, ownSlot_fold_assign k rest _]
    rw [List.reverse_cons, List.find?_append]
    cases hf : rest.reverse.find? (fun p => p.1 == k && p.2.enumerable) with
    | some pr => simp [hf]
    | none =>
      simp only [hf]
      by_cases hpe : p.2.enumerable
      · by_cases hpk : (p.1 == k)
        · have hk : p.1 = k := by simpa using hpk
          simp [List.find?, hpe, hpk, ownSlot_assignOwn, hk]
        · have hk : ¬(k = p.1) := fun h =>
            (by simpa using hpk : ¬(p.1 = k)) h.symm
          simp [List.find?, hpe, hpk, ownSlot_assignOwn, hk]
      · simp [List.find?, hpe]

/-- Folding plain-assignment copies never touches the delegate link. -/
theorem fold_assign_delegate {α : Type} :
    ∀ (pairs : List (String × Slot α)) (t : Node α),
      (pairs.foldl (fun t p =>
          if p.2.enumerable then assignOwn t p.1 p.2.value else t)
        t).delegate = t.delegate
  | [], _ => rfl
  | p :: rest, t => by
    rw [List.foldl_cons, fold_assign_delegate rest _]
    by_cases hpe : p.2.enumerable <;> simp [hpe, assignOwn_delegate]

/-- The value copied for key `k` by the merge, if any: from the last source
(and within it the last own pair) whose own pair for `k` is enumerable. -/
def lastEnumVal {α : Type} : List (Node α) → String → Option α
  | [], _ => none
  | s :: rest, k =>
    match lastEnumVal rest k with
    | some v => some v
    | none =>
      (s.own.reverse.find? (fun p => p.1 == k && p.2.enumerable)).map
        (fun pr => pr.2.value)

/-- Lookup after merging one source. -/
theorem ownSlot_mergeOne {α : Type} (t s : Node α) (k : String) :
    ownSlot (mergeOne t s) k =
      (match s.own.reverse.find? (fun p => p.1 == k && p.2.enumerable) with
      | some pr => some ⟨pr.2.value, true, true, true⟩
      | none => ownSlot t k) :=
  ownSlot_fold_assign k s.own t

/-- Lookup after the whole merge: the last enumerable occurrence across the
sources wins; otherwise the target's own slot is unchanged. -/
theorem ownSlot_mergeInto {α : Type} :
    ∀ (sources : List (Node α)) (t : Node α) (k : String),
      ownSlot (mergeInto t sources) k =
        (match lastEnumVal sources k with
        | some v => some ⟨v, true, true, true⟩
        | none => ownSlot t k)
  | [], _, _ => rfl
  | s :: rest, t, k => by
    rw [show mergeInto t (s :: rest) = mergeInto (mergeOne t s) rest from rfl,
      ownSlot_mergeInto rest _ k]
    cases hl : lastEnumVal rest k with
    | some v => simp [lastEnumVal, hl]
    | none =>
      simp only [lastEnumVal, hl]
      rw [ownSlot_mergeOne]
      cases hs : s.own.reverse.find? (fun p => p.1 == k && p.2.enumerable) <;>
        simp [hs]

/-- Merging never touches the target's delegate link. -/
theorem mergeInto_delegate {α : Type} :
    ∀ (sources : List (Node α)) (t : Node α),
      (mergeInto t sources).delegate = t.delegate
  | [], _ => rfl
  | s :: rest, t => by
    rw [show mergeInto t (s :: rest) = mergeInto (mergeOne t s) rest from rfl,
      mergeInto_delegate rest]
    exact fold_assign_delegate s.own t

/-- C6: `mergeInto(target, ...sources)` copies, in left-to-right source
order, each enumerable own value of each source into the target as an own
slot with all flags true (later sources overwrite earlier ones and
pre-existing target keys), skips non-enumerable slots and anything
inherited through a source's delegate chain, and returns the target (its
delegate untouched); `mergeInto({}, {a:1,b:1}, {b:2,c:2})` yields
`{a:1, b:2, c:2}`. -/
theorem c6_mergeInto_enumerable_own_copy :
    (∀ (α : Type) (t : Node α) (sources : List (Node α)) (k : String),
      ownSlot (mergeInto t sources) k =
        (match lastEnumVal sources k with
        | some v => some ⟨v, true, true, true⟩
        | none => ownSlot t k)) ∧
    (∀ (α : Type) (t : Node α) (o : List (String × Slot α))
        (d1 d2 : Option (Node α)),
      mergeOne t (.mk o d1) = mergeOne t (.mk o d2)) ∧
    (∀ (α : Type) (t : Node α) (sources : List (Node α)),
      (mergeInto t sources).delegate = t.delegate) ∧
    mergeInto (Node.mk ([] : List (String × Slot Int)) none)
        [Node.mk [("a", ⟨1, true, true, true⟩), ("b", ⟨1, true, true, true⟩)]
          none,
         Node.mk [("b", ⟨2, true, true, true⟩), ("c", ⟨2, true, true, true⟩)]
          none] =
      Node.mk [("a", ⟨1, true, true, true⟩), ("b", ⟨2, true, true, true⟩),
        ("c", ⟨2, true, true, true⟩)] none :=
  ⟨fun _ t sources k => ownSlot_mergeInto sources t k,
    fun _ _ _ _ _ => rfl,
    fun _ t sources => mergeInto_delegate sources t,
    by rfl⟩

end Resolver

/-! ## Part 3: mutable delegate links and cycle rejection

Modelled from the spec: `linkDelegate(node, delegate)` reassigns a Node's
delegate link and fails with `CycleError` when the requested link would
create a cycle — when `delegate` is reachable from `node` via existing
delegate links (including `delegate === node`) or `node` is reachable from
`delegate`.  Nodes are identified by numbers and the delegate links form a
finite table, each node having at most one delegate (the link of the first
table entry for the node). -/

namespace DelegateHeap

/-- The delegate-link table: pairs `(node, delegate)`. -/
def Heap : Type := List (Nat × Nat)

/-- The length of the table (used as walk fuel). -/
def Heap.size (h : Heap) : Nat := List.length h

/-- The delegate of `a`, if any. -/
def delegateOf (h : Heap) (a : Nat) : Option Nat :=
  (List.find? (fun p => p.1 == a) h).map Prod.snd

/-- Follow delegate links `k` times from `a`. -/
def iterDel (h : Heap) : Nat → Nat → Option Nat
  | 0, a => some a
  | k + 1, a =>
    match delegateOf h a with
    | none => none
    | some b => iterDel h k b

/-- The delegate chain starting after `a`, cut off at `fuel` steps. -/
def chainFrom (h : Heap) : Nat → Nat → List Nat
  | 0, _ => []
  | fuel + 1, a =>
    match delegateOf h a with
    | none => []
    | some b => b :: chainFrom h fuel b

/-- `b` lies on the delegate chain of `a` (walk bounded by the table
size, which suffices on acyclic tables). -/
def reachableB (h : Heap) (a b : Nat) : Bool :=
  (chainFrom h (h.size + 1) a).contains b

/-- Raised by `linkDelegate` when the requested link would create a
cycle. -/
inductive CycleError : Type where
  | cycleError
deriving Repr, DecidableEq

/-- Replace (or create) the delegate link of `node`. -/
def setDelegate (h : Heap) (node delegate : Nat) : Heap :=
  (node, delegate) :: List.filter (fun p => p.1 != node) h

/-- Modelled from the spec: set `node.delegate = delegate`, failing with
`CycleError` if `delegate` is reachable from `node` (including
`delegate === node`) or `node` is reachable from `delegate`. -/
def linkDelegate (h : Heap) (node delegate : Nat) :
    Except CycleError Heap :=
  if node == delegate || reachableB h node delegate ||
      reachableB h delegate node then
    .error .cycleError
  else
    .ok (setDelegate h node delegate)

/-- No node returns to itself along delegate links. -/
def Acyclic (h : Heap) : Prop :=
  ∀ a k, iterDel h (k + 1) a ≠ some a

/-- The delegate tables reachable from the empty table through successful
`linkDelegate` calls. -/
inductive ReachableState : Heap → Prop where
  | init : ReachableState ([] : Heap)
  | step {h h' : Heap} {n d : Nat} : ReachableState h →
      linkDelegate h n d = .ok h' → ReachableState h'

/-- Splitting an iterated walk. -/
theorem iterDel_add (h : Heap) :
    ∀ (m k a : Nat),
      iterDel h (m + k) a = (iterDel h m a).bind (fun b => iterDel h k b)
  | 0, k, a => by rw [Nat.zero_add]; rfl
  | m + 1, k, a => by
    rw [Nat.succ_add]
    show iterDel h (m + k + 1) a = _
    cases hd : delegateOf h a with
    | none => simp [iterDel, hd]
    | some b => simp [iterDel, hd, iterDel_add h m k b]

/-- Chain membership is exactly a positive bounded iterate hit. -/
theorem mem_chainFrom_iff (h : Heap) :
    ∀ (fuel a b : Nat),
      b ∈ chainFrom h fuel a ↔
        ∃ j, 1 ≤ j ∧ j ≤ fuel ∧ iterDel h j a = some b
  | 0, a, b => by
    simp [chainFrom]
    intro j h1 h2
    omega
  | fuel + 1, a, b => by
    cases hd : delegateOf h a with
    | none =>
      simp only [chainFrom, hd, List.not_mem_nil, false_iff]
      rintro ⟨j, h1, h2, hit⟩
      obtain ⟨j2, rfl⟩ : ∃ j2, j = j2 + 1 := ⟨j - 1, by omega⟩
      simp [iterDel, hd] at hit
    | some c =>
      simp only [chainFrom, hd, List.mem_cons]
      constructor
      · rintro (rfl | hmem)
        · exact ⟨1, le_refl 1, by omega, by simp [iterDel, hd]⟩
        · obtain ⟨j, h1, h2, hit⟩ := (mem_chainFrom_iff h fuel c b).mp hmem
          exact ⟨j + 1, by omega, by omega, by simp [iterDel, hd, hit]⟩
      · rintro ⟨j, h1, h2, hit⟩
        obtain ⟨j2, rfl⟩ : ∃ j2, j = j2 + 1 := ⟨j - 1, by omega⟩
        simp only [iterDel, hd] at hit
        cases j2 with
        | zero => left; exact (by simpa [iterDel] using hit : c = b).symm
        | succ j3 =>
          right
          exact (mem_chainFrom_iff h fuel c b).mpr ⟨j3 + 1, by omega,
            by omega, hit⟩

/-- A prefix of a successful walk is successful. -/
theorem iterDel_isSome_of_le (h : Heap) {a b j : Nat}
    (hit : iterDel h j a = some b) {i : Nat} (hij : i ≤ j) :
    (iterDel h i a).isSome := by
  have hsplit := iterDel_add h i (j - i) a
  rw [Nat.add_sub_cancel' hij, hit] at hsplit
  cases hi : iterDel h i a with
  | none => rw [hi] at hsplit; simp at hsplit
  | some x => simp

/-- A node with a delegate occurs among the table keys. -/
theorem mem_keys_of_delegateOf (h : Heap) {x y : Nat}
    (hd : delegateOf h x = some y) : x ∈ List.map Prod.fst h := by
  unfold delegateOf at hd
  cases hf : List.find? (fun p => p.1 == x) h with
  | none => rw [hf] at hd; simp at hd
  | some p =>
    have hmem := List.mem_of_find?_eq_some hf
    have hpx := List.find?_some hf
    simp only [] at hpx
    have hpx2 : p.1 = x := by simpa using hpx
    exact hpx2 ▸ List.mem_map_of_mem Prod.fst hmem

/-- On an acyclic table, the positions of a successful walk carry pairwise
distinct nodes. -/
theorem iterDel_inj (h : Heap) (hac : Acyclic h) {a b j : Nat}
    (hit : iterDel h j a = some b) :
    ∀ i1 i2, i1 < i2 → i2 ≤ j → iterDel h i1 a ≠ iterDel h i2 a := by
  intro i1 i2 hlt hle heq
  have h1 : (iterDel h i1 a).isSome :=
    iterDel_isSome_of_le h hit (le_of_lt (lt_of_lt_of_le hlt hle))
  obtain ⟨x, hx⟩ := Option.isSome_iff_exists.mp h1
  have h2 : iterDel h i2 a = some x := by rw [← heq, hx]
  have hsplit := iterDel_add h i1 (i2 - i1) a
  rw [Nat.add_sub_cancel' (le_of_lt hlt), h2, hx] at hsplit
  obtain ⟨m, hm⟩ : ∃ m, i2 - i1 = m + 1 := ⟨i2 - i1 - 1, by omega⟩
  rw [hm] at hsplit
  exact hac x m hsplit.symm

/-- On an acyclic table, a successful walk is no longer than the table. -/
theorem iterDel_length_bound (h : Heap) (hac : Acyclic h) {a b j : Nat}
    (hit : iterDel h j a = some b) : j ≤ List.length h := by
  by_contra hgt
  push_neg at hgt
  have hsome : ∀ i, i < j →
      iterDel h i a = some ((iterDel h i a).getD 0) := by
    intro i hi
    have hs := iterDel_isSome_of_le h hit (le_of_lt hi)
    obtain ⟨x, hx⟩ := Option.isSome_iff_exists.mp hs
    simp [hx]
  have hnodup :
      ((List.range j).map (fun i => (iterDel h i a).getD 0)).Nodup := by
    refine List.Nodup.map_on ?_ (List.nodup_range j)
    intro i1 h1 i2 h2 hfeq
    by_contra hne
    rcases Nat.lt_or_ge i1 i2 with hlt | hge
    · exact iterDel_inj h hac hit i1 i2 hlt
        (le_of_lt (List.mem_range.mp h2))
        (by rw [hsome i1 (List.mem_range.mp h1),
          hsome i2 (List.mem_range.mp h2), hfeq])
    · have hlt2 : i2 < i1 := lt_of_le_of_ne hge fun hh => hne hh.symm
      exact iterDel_inj h hac hit i2 i1 hlt2
        (le_of_lt (List.mem_range.mp h1))
        (by rw [hsome i1 (List.mem_range.mp h1),
          hsome i2 (List.mem_range.mp h2), hfeq])
  have hsubset : ∀ x ∈ (List.range j).map
      (fun i => (iterDel h i a).getD 0), x ∈ List.map Prod.fst h := by
    intro x hx
    obtain ⟨i, hi, rfl⟩ := List.mem_map.mp hx
    have hi2 := List.mem_range.mp hi
    have hnext : (iterDel h (i + 1) a).isSome :=
      iterDel_isSome_of_le h hit (by omega)
    have hsplit := iterDel_add h i 1 a
    rw [hsome i hi2] at hsplit
    cases hd : delegateOf h ((iterDel h i a).getD 0) with
    | none =>
      rw [hsplit] at hnext
      simp [iterDel, hd] at hnext
    | some y => exact mem_keys_of_delegateOf h hd
  have hsub : ((List.range j).map (fun i => (iterDel h i a).getD 0)) ⊆
      List.map Prod.fst h := hsubset
  have hlen := List.Subperm.length_le (hnodup.subperm hsub)
  simp at hlen
  omega

/-- On an acyclic table the bounded chain walk finds every truly reachable
node. -/
theorem reachableB_complete (h : Heap) (hac : Acyclic h) {a b j : Nat}
    (h1 : 1 ≤ j) (hit : iterDel h j a = some b) :
    reachableB h a b = true := by
  have hj := iterDel_length_bound h hac hit
  have hmem : b ∈ chainFrom h (h.size + 1) a :=
    (mem_chainFrom_iff h _ a b).mpr
      ⟨j, h1, by unfold Heap.size; omega, hit⟩
  unfold reachableB
  exact List.elem_eq_true_of_mem hmem

/-- A one-step link is found by the bounded chain walk. -/
theorem reachableB_of_delegateOf (h : Heap) {a b : Nat}
    (hd : delegateOf h a = some b) : reachableB h a b = true := by
  have hmem : b ∈ chainFrom h (h.size + 1) a :=
    (mem_chainFrom_iff h _ a b).mpr
      ⟨1, le_refl 1, by omega, by simp [iterDel, hd]⟩
  unfold reachableB
  exact List.elem_eq_true_of_mem hmem

/-- The new link reads back after `setDelegate`. -/
theorem delegateOf_setDelegate_self (h : Heap) (n d : Nat) :
    delegateOf (setDelegate h n d) n = some d := by
  simp [delegateOf, setDelegate, List.find?]

/-- Other nodes keep their links after `setDelegate`. -/
theorem delegateOf_setDelegate_ne (h : Heap) (n d : Nat) {x : Nat}
    (hx : x ≠ n) : delegateOf (setDelegate h n d) x = delegateOf h x := by
  unfold delegateOf setDelegate
  have hne : (n == x) = false := beq_eq_false_iff_ne.mpr fun hh => hx hh.symm
  rw [List.find?_cons_of_neg _ (by simp [hne])]
  congr 1
  induction h with
  | nil => rfl
  | cons q rest ih =>
    by_cases hq : q.1 = n
    · have : (q.1 != n) = false := by simp [hq]
      have hqx : (q.1 == x) = false :=
        beq_eq_false_iff_ne.mpr fun hh => hx (hq ▸ hh ▸ rfl)
      simp [List.filter_cons, this, List.find?_cons, hqx, ih]
    · have : (q.1 != n) = true := by simp [hq]
      by_cases hqx : (q.1 == x) = true
      · simp [List.filter_cons, this, List.find?_cons, hqx]
      · simp only [Bool.not_eq_true] at hqx
        simp [List.filter_cons, this, List.find?_cons, hqx, ih]

/-- Relinking `n` leaves any walk that never visits `n` unchanged. -/
theorem iterDel_setDelegate_avoid (h : Heap) (n d : Nat) :
    ∀ (j a : Nat),
      (∀ i x, i < j → iterDel (setDelegate h n d) i a = some x → x ≠ n) →
      iterDel (setDelegate h n d) j a = iterDel h j a
  | 0, _, _ => rfl
  | j + 1, a, havoid => by
    have ha : a ≠ n := havoid 0 a (by omega) rfl
    show (match delegateOf (setDelegate h n d) a with
      | none => none
      | some b => iterDel (setDelegate h n d) j b) = _
    rw [delegateOf_setDelegate_ne h n d ha]
    cases hd : delegateOf h a with
    | none => simp [iterDel, hd]
    | some b =>
      rw [show iterDel h (j + 1) a = iterDel h j b from by
        simp [iterDel, hd]]
      exact iterDel_setDelegate_avoid h n d j b (fun i x hi hx =>
        havoid (i + 1) x (by omega) (by
          show (match delegateOf (setDelegate h n d) a with
            | none => none
            | some c => iterDel (setDelegate h n d) i c) = some x
          rw [delegateOf_setDelegate_ne h n d ha, hd]
          exact hx))

/-- A cycle through `a` that visits `w` is also a cycle through `w`. -/
theorem cycle_rotate (hp : Heap) (a w k i : Nat)
    (hcyc : iterDel hp (k + 1) a = some a) (hi : iterDel hp i a = some w) :
    iterDel hp (k + 1) w = some w := by
  have h1 := iterDel_add hp i (k + 1) a
  rw [hi] at h1
  simp only [Option.some_bind] at h1
  have h2 := iterDel_add hp (k + 1) i a
  rw [hcyc] at h2
  simp only [Option.some_bind] at h2
  rw [Nat.add_comm (k + 1) i] at h2
  rw [hi] at h2
  exact h1.symm.trans h2

/-- A successful `linkDelegate` preserves acyclicity: the rejected cases
are exactly the ones that could close a cycle. -/
theorem linkDelegate_preserves_acyclic {h h2 : Heap} {n d : Nat}
    (hac : Acyclic h) (hok : linkDelegate h n d = .ok h2) : Acyclic h2 := by
  unfold linkDelegate at hok
  by_cases hg : (n == d || reachableB h n d || reachableB h d n) = true
  · rw [if_pos hg] at hok
    cases hok
  · rw [if_neg hg] at hok
    have hh2 : h2 = setDelegate h n d := by cases hok; rfl
    subst hh2
    simp only [Bool.or_eq_true, not_or] at hg
    obtain ⟨⟨hnd, _hr1⟩, hr2⟩ := hg
    have hne : n ≠ d := fun hh => hnd (by simp [hh])
    intro a k hcontra
    by_cases hthru : ∃ i, i ≤ k ∧ iterDel (setDelegate h n d) i a = some n
    · obtain ⟨i, _hik, hin⟩ := hthru
      have hcyc_n := cycle_rotate (setDelegate h n d) a n k i hcontra hin
      have hstep : iterDel (setDelegate h n d) k d = some n := by
        rw [show iterDel (setDelegate h n d) (k + 1) n =
            iterDel (setDelegate h n d) k d from by
          simp [iterDel, delegateOf_setDelegate_self]] at hcyc_n
        exact hcyc_n
      have hP : ∃ j, iterDel (setDelegate h n d) j d = some n := ⟨k, hstep⟩
      have hjspec := Nat.find_spec hP
      have hj1 : 1 ≤ Nat.find hP := by
        rcases Nat.eq_zero_or_pos (Nat.find hP) with h0 | h1
        · rw [h0] at hjspec
          simp only [iterDel, Option.some.injEq] at hjspec
          exact absurd hjspec.symm hne
        · exact h1
      have htrans : iterDel h (Nat.find hP) d = some n := by
        rw [← iterDel_setDelegate_avoid h n d (Nat.find hP) d
          (fun i x hi hx hxn => Nat.find_min hP hi (hxn ▸ hx))]
        exact hjspec
      exact hr2 (reachableB_complete h hac hj1 htrans)
    · push_neg at hthru
      have havoid : ∀ i x, i < k + 1 →
          iterDel (setDelegate h n d) i a = some x → x ≠ n := by
        intro i x hi hx hxn
        exact hthru i (by omega) (hxn ▸ hx)
      rw [iterDel_setDelegate_avoid h n d (k + 1) a havoid] at hcontra
      exact hac a k hcontra

/-- Every table reachable through successful `linkDelegate` calls is
acyclic. -/
theorem reachable_state_acyclic : ∀ {h : Heap}, ReachableState h →
    Acyclic h := by
  intro h hr
  induction hr with
  | init =>
    intro a k
    simp [iterDel, delegateOf, List.find?]
  | step _hprev hok ih => exact linkDelegate_preserves_acyclic ih hok

/-- C3: the delegate graph is acyclic in every reachable state:
`linkDelegate` raises `CycleError` whenever the requested link would create
a cycle — `linkDelegate(a, b)` followed by `linkDelegate(b, a)` fails,
`linkDelegate(a, a)` always fails — and successful links preserve
acyclicity, so no Node ever appears in its own delegate chain. -/
theorem c3_delegate_graph_acyclic :
    (∀ h : Heap, ReachableState h → Acyclic h) ∧
    (∀ (h : Heap) (a : Nat), linkDelegate h a a = .error .cycleError) ∧
    (∀ (h h2 : Heap) (a b : Nat), linkDelegate h a b = .ok h2 →
      linkDelegate h2 b a = .error .cycleError) ∧
    (∀ (h h2 : Heap) (n d : Nat), Acyclic h → linkDelegate h n d = .ok h2 →
      Acyclic h2) := by
  refine ⟨fun _ => reachable_state_acyclic, ?_, ?_,
    fun _ _ _ _ hac hok => linkDelegate_preserves_acyclic hac hok⟩
  · intro h a
    unfold linkDelegate
    simp
  · intro h h2 a b hok
    unfold linkDelegate at hok
    by_cases hg : (a == b || reachableB h a b || reachableB h b a) = true
    · rw [if_pos hg] at hok
      cases hok
    · rw [if_neg hg] at hok
      have hh2 : h2 = setDelegate h a b := by cases hok; rfl
      subst hh2
      have hreach : reachableB (setDelegate h a b) a b = true :=
        reachableB_of_delegateOf _ (delegateOf_setDelegate_self h a b)
      unfold linkDelegate
      rw [if_pos (by rw [hreach]; simp)]

/-- C3 witness: linking 0 to 1 in the empty table succeeds and yields an
acyclic reachable state; the reverse link and any self-link then fail. -/
theorem c3_delegate_graph_acyclic_witness :
    Acyclic ([(0, 1)] : Heap) ∧
    linkDelegate ([(0, 1)] : Heap) 1 0 = .error .cycleError ∧
    linkDelegate ([] : Heap) 2 2 = .error .cycleError ∧
    Acyclic (setDelegate ([] : Heap) 0 1) :=
  ⟨c3_delegate_graph_acyclic.1 [(0, 1)]
      (@ReachableState.step [] [(0, 1)] 0 1 ReachableState.init (by rfl)),
    c3_delegate_graph_acyclic.2.2.1 [] [(0, 1)] 0 1 (by rfl),
    c3_delegate_graph_acyclic.2.1 [] 2,
    c3_delegate_graph_acyclic.2.2.2 [] (setDelegate [] 0 1) 0 1
      (fun a k => by simp [iterDel, delegateOf, List.find?]) (by rfl)⟩

/-- The chain walk inspects at most `fuel` nodes. -/
theorem chainFrom_length_le (h : Heap) :
    ∀ (fuel a : Nat), (chainFrom h fuel a).length ≤ fuel
  | 0, _ => Nat.le_refl 0
  | fuel + 1, a => by
    cases hd : delegateOf h a with
    | none => simp [chainFrom, hd]
    | some b =>
      simp only [chainFrom, hd, List.length_cons]
      exact Nat.succ_le_succ (chainFrom_length_le h fuel b)

end DelegateHeap

namespace Resolver

/-- The number of Nodes on the delegate chain. -/
def chainLength {α : Type} (n : Node α) : Nat := (chain n).length

/-- Fuel-bounded resolution: `none` when the fuel runs out before the walk
finishes. -/
def getFuel {α : Type} : Nat → Node α → String → Option (ResolutionResult α)
  | 0, _, _ => none
  | fuel + 1, node, key =>
    match node.own.find? (fun p => p.1 == key) with
    | some p => some (.found p.2.value node)
    | none =>
      match node.delegate with
      | some d => getFuel fuel d key
      | none => some .notFound

/-- Fuel equal to the chain length always suffices: resolution visits each
Node of the chain at most once. -/
theorem getFuel_suffices {α : Type} :
    ∀ (n : Node α) (key : String),
      getFuel (chainLength n) n key = some (get n key)
  | .mk o none, key => by
    cases h : List.find? (fun p => p.1 == key) o with
    | some p => simp [getFuel, get, chain, chainLength, h]
    | none => simp [getFuel, get, chain, chainLength, h]
  | .mk o (some d), key => by
    have hlen : chainLength (Node.mk o (some d)) = chainLength d + 1 := by
      simp [chainLength, chain]
    cases h : List.find? (fun p => p.1 == key) o with
    | some p =>
      rw [hlen]
      simp [getFuel, get, h]
    | none =>
      rw [hlen]
      simp only [getFuel, get, Node.own_mk, Node.delegate_mk, h]
      exact getFuel_suffices d key

/-- First occurrences never outnumber the pairs. -/
theorem firstOcc_length_le {α : Type} :
    ∀ (l : List (String × Slot α)) (seen : List String),
      (firstOcc l seen).length ≤ l.length
  | [], _ => Nat.le_refl 0
  | p :: rest, seen => by
    by_cases hp : p.1 ∈ seen
    · simp only [firstOcc, if_pos hp, List.length_cons]
      exact (firstOcc_length_le rest seen).trans (Nat.le_succ _)
    · simp only [firstOcc, if_neg hp, List.length_cons]
      exact Nat.succ_le_succ (firstOcc_length_le rest _)

/-- Enumeration produces a finite sequence no longer than the total number
of own pairs along the chain. -/
theorem enumerate_length_le {α : Type} (n : Node α) :
    (enumerateOwnAndInherited n).length ≤ (allOwnPairs n).length := by
  rw [show enumerateOwnAndInherited n = enumKeys n [] from rfl,
    enumKeys_eq]
  simp only [List.length_map]
  exact (List.length_filter_le _ _).trans (firstOcc_length_le _ _)

/-- `set` adds at most one own pair and touches nothing else. -/
theorem set_own_length {α : Type} (n : Node α) (k : String) (v : α) :
    (set n k v).own.length ≤ n.own.length + 1 := by
  unfold set
  cases h : ownSlot n k with
  | none => simp
  | some s => cases hw : s.writable <;> simp [hw]

/-- A successful `defineOwn` adds at most one own pair. -/
theorem defineOwn_own_length {α : Type} [DecidableEq α] (n : Node α)
    (k : String) (d : Slot α) (n2 : Node α)
    (hok : defineOwn n k d = .ok n2) :
    n2.own.length ≤ n.own.length + 1 := by
  unfold defineOwn at hok
  split at hok
  · cases hok
    simp
  · split at hok
    · cases hok
    · cases hok
      simp

end Resolver

/-- C7: on the inductive Node model every delegate chain is finite and
acyclic and the resolver operations are total Lean functions; moreover the
walks are bounded: resolution needs fuel no larger than the chain length
(each Node is visited at most once), enumeration emits at most one key per
own pair along the chain, `set` and a successful `defineOwn` grow the own
list by at most one entry, and the cycle-check walk of `linkDelegate`
inspects at most its fuel's worth of nodes. -/
theorem c7_operations_terminate_bounded :
    (∀ (α : Type) (n : Resolver.Node α) (key : String),
      Resolver.getFuel (Resolver.chainLength n) n key =
        some (Resolver.get n key)) ∧
    (∀ (α : Type) (n : Resolver.Node α),
      (Resolver.enumerateOwnAndInherited n).length ≤
        (Resolver.allOwnPairs n).length) ∧
    (∀ (α : Type) (n : Resolver.Node α) (k : String) (v : α),
      (Resolver.set n k v).own.length ≤ n.own.length + 1) ∧
    (∀ (α : Type) (_i : DecidableEq α) (n : Resolver.Node α) (k : String)
        (d : Resolver.Slot α) (n2 : Resolver.Node α),
      Resolver.defineOwn n k d = .ok n2 →
        n2.own.length ≤ n.own.length + 1) ∧
    (∀ (h : DelegateHeap.Heap) (fuel a : Nat),
      (DelegateHeap.chainFrom h fuel a).length ≤ fuel) :=
  ⟨fun _ n key => Resolver.getFuel_suffices n key,
    fun _ n => Resolver.enumerate_length_le n,
    fun _ n k v => Resolver.set_own_length n k v,
    fun _ _ n k d n2 hok => Resolver.defineOwn_own_length n k d n2 hok,
    fun h fuel a => DelegateHeap.chainFrom_length_le h fuel a⟩

/-- C7 witness: the `defineOwn` bound at a concrete successful call. -/
theorem c7_operations_terminate_bounded_witness :
    Resolver.defineOwn (Resolver.Node.mk
        ([] : List (String × Resolver.Slot Int)) none) "x"
        ⟨7, true, true, true⟩ =
      .ok (Resolver.Node.mk [("x", ⟨7, true, true, true⟩)] none) ∧
    (Resolver.Node.mk [("x", (⟨7, true, true, true⟩ : Resolver.Slot Int))]
        none).own.length ≤
      (Resolver.Node.mk ([] : List (String × Resolver.Slot Int))
        none).own.length + 1 :=
  ⟨by rfl,
    c7_operations_terminate_bounded.2.2.2.1 Int inferInstance
      (Resolver.Node.mk ([] : List (String × Resolver.Slot Int)) none) "x"
      ⟨7, true, true, true⟩
      (Resolver.Node.mk [("x", ⟨7, true, true, true⟩)] none) (by rfl)⟩

/-! ## Part 4: the OLOO store chain

From `reviewingPrototypalInheritance-1.js` (lines 343-394) and `OLOO.js`:
`MyStore` holds the methods `init` and `push`, `Blockchain` is created
delegating to `MyStore`, and `chain` delegating to `Blockchain`.  The
methods read and write through `this`, so every mutation creates or
updates own slots on the receiver. -/

namespace Oloo

/-- The three objects of the example. -/
inductive NodeId : Type where
  | chainN
  | blockchainN
  | mystoreN
deriving Repr, DecidableEq

/-- Values stored in slots: numbers, pushed elements, and the two method
closures of `MyStore`. -/
inductive JSVal (α : Type) : Type where
  | num (n : Int)
  | elem (x : α)
  | fnInit
  | fnPush
deriving Repr

/-- The own-property maps of the three objects. -/
structure OlooState (α : Type) where
  chainOwn : List (String × JSVal α)
  blockchainOwn : List (String × JSVal α)
  mystoreOwn : List (String × JSVal α)
deriving Repr

/-- Own map of an object. -/
def ownOf {α : Type} (st : OlooState α) : NodeId → List (String × JSVal α)
  | .chainN => st.chainOwn
  | .blockchainN => st.blockchainOwn
  | .mystoreN => st.mystoreOwn

/-- The fixed prototype links: `chain -> Blockchain -> MyStore`. -/
def protoOf : NodeId → Option NodeId
  | .chainN => some .blockchainN
  | .blockchainN => some .mystoreN
  | .mystoreN => none

/-- Own-property lookup. -/
def lookupOwn {α : Type} (st : OlooState α) (id : NodeId) (k : String) :
    Option (JSVal α) :=
  ((ownOf st id).find? (fun p => p.1 == k)).map Prod.snd

/-- Lookup starting at `MyStore` (end of the chain). -/
def lookupFromMystore {α : Type} (st : OlooState α) (k : String) :
    Option (JSVal α) :=
  lookupOwn st .mystoreN k

/-- Lookup starting at `Blockchain`: own slot first, then `MyStore`. -/
def lookupFromBlockchain {α : Type} (st : OlooState α) (k : String) :
    Option (JSVal α) :=
  match lookupOwn st .blockchainN k with
  | some v => some v
  | none => lookupFromMystore st k

/-- Lookup starting at `chain`: own slot first, then up the chain. -/
def lookupFromChain {α : Type} (st : OlooState α) (k : String) :
    Option (JSVal α) :=
  match lookupOwn st .chainN k with
  | some v => some v
  | none => lookupFromBlockchain st k

/-- Property lookup along the prototype chain (each object first, then its
`protoOf` ancestors in order). -/
def lookupAt {α : Type} (st : OlooState α) (id : NodeId) (k : String) :
    Option (JSVal α) :=
  match id with
  | .chainN => lookupFromChain st k
  | .blockchainN => lookupFromBlockchain st k
  | .mystoreN => lookupFromMystore st k

/-- Plain assignment into one own map. -/
def setOwnPair {α : Type} (own : List (String × JSVal α)) (k : String)
    (v : JSVal α) : List (String × JSVal α) :=
  if (own.find? (fun p => p.1 == k)).isSome then
    own.map (fun p => if p.1 == k then (p.1, v) else p)
  else
    own ++ [(k, v)]

/-- `this[k] = v`: the own slot is created or updated on the receiver
only. -/
def setProp {α : Type} (st : OlooState α) (id : NodeId) (k : String)
    (v : JSVal α) : OlooState α :=
  match id with
  | .chainN => { st with chainOwn := setOwnPair st.chainOwn k v }
  | .blockchainN => { st with blockchainOwn := setOwnPair st.blockchainOwn k v }
  | .mystoreN => { st with mystoreOwn := setOwnPair st.mystoreOwn k v }

/-- JavaScript's number-to-string key conversion for array-style writes. -/
def jsKey (n : Int) : String := toString n

/-- `push(b) { this[this.length] = b; return ++this.length }`, with `this`
the receiver; `none` when `this.length` is not a number. -/
def push {α : Type} (st : OlooState α) (this : NodeId) (b : JSVal α) :
    Option (OlooState α × Int) :=
  match lookupAt st this "length" with
  | some (.num len) =>
    let st1 := setProp st this (jsKey len) b
    some (setProp st1 this "length" (.num (len + 1)), len + 1)
  | _ => none

/-- `init(element) { this.length = 0; this.push(element) }`. -/
def init {α : Type} (st : OlooState α) (this : NodeId) (element : JSVal α) :
    Option (OlooState α) :=
  (push (setProp st this "length" (.num 0)) this element).map Prod.fst

/-- The state right after the three objects are created: only `MyStore`
owns properties (its two methods). -/
def initialState (α : Type) : OlooState α :=
  ⟨[], [], [("init", .fnInit), ("push", .fnPush)]⟩

end Oloo

/-- C10: in the OLOO chain (`chain -> Blockchain -> MyStore`), after
`chain.init(x)` followed by `chain.push(y)` the receiver `chain` has own
slots `length = 2`, `0 = x` and `1 = y`, `push` returns the new length 2,
and neither `Blockchain` nor `MyStore` gains or changes any own slot; the
inherited methods are found through the prototype chain. -/
theorem c10_oloo_mutations_on_receiver_only :
    ∀ (α : Type) (x y : α),
      ∃ (st1 st2 : Oloo.OlooState α),
        Oloo.init (Oloo.initialState α) Oloo.NodeId.chainN (.elem x) =
          some st1 ∧
        Oloo.push st1 Oloo.NodeId.chainN (.elem y) = some (st2, 2) ∧
        Oloo.lookupOwn st2 Oloo.NodeId.chainN "length" = some (.num 2) ∧
        Oloo.lookupOwn st2 Oloo.NodeId.chainN "0" = some (.elem x) ∧
        Oloo.lookupOwn st2 Oloo.NodeId.chainN "1" = some (.elem y) ∧
        st1.blockchainOwn = (Oloo.initialState α).blockchainOwn ∧
        st1.mystoreOwn = (Oloo.initialState α).mystoreOwn ∧
        st2.blockchainOwn = (Oloo.initialState α).blockchainOwn ∧
        st2.mystoreOwn = (Oloo.initialState α).mystoreOwn ∧
        Oloo.lookupAt (Oloo.initialState α) Oloo.NodeId.chainN "init" =
          some .fnInit ∧
        Oloo.lookupAt (Oloo.initialState α) Oloo.NodeId.chainN "push" =
          some .fnPush :=
  fun α x y =>
    ⟨⟨[("length", .num 1), ("0", .elem x)], [],
        [("init", .fnInit), ("push", .fnPush)]⟩,
      ⟨[("length", .num 2), ("0", .elem x), ("1", .elem y)], [],
        [("init", .fnInit), ("push", .fnPush)]⟩,
      by rfl, by rfl, by rfl, by rfl, by rfl, by rfl, by rfl, by rfl,
      by rfl, by rfl, by rfl⟩
